import Mathlib

/-!
Verification of the Kruskal-tensor kernel of tensorly
(src/tensorly/kruskal_tensor.py) against its specification.

A factor matrix is embedded as a list of rows over the integers; a dense
tensor is a shape together with its row-major (mode-0 order) flat data.
The functions of kruskal_tensor.py are translated directly; the backend
collaborators that the file calls but that are not part of the shown
sources (the Khatri-Rao product, fold, tensor_to_vec, sum, dot, transpose)
are modelled from the specification, as indicated on each definition.
Fallible numerical calls (shape mismatches, index errors) are embedded
with Option: none stands for the error the array engine raises.
-/

/-- A matrix, as its list of rows. -/
abbrev Mat := List (List Int)

/-- A dense tensor: its shape and its row-major flat data. -/
structure Tensor where
  shape : List Nat
  data : List Int
deriving DecidableEq, Repr

/-- Row Hadamard product, failing when the lengths disagree (the
broadcast error the array engine raises on a rank mismatch). -/
def hadamard (u v : List Int) : Option (List Int) :=
  if u.length = v.length then some (List.zipWith (· * ·) u v) else none

/-- Collects a list of optional values, propagating the first failure. -/
def optList : List (Option α) → Option (List α)
  | [] => some []
  | o :: rest => o.bind (fun x => (optList rest).map (x :: ·))

/-- Modelled from the spec: the core of the Khatri-Rao collaborator, the
column-wise Kronecker product of the matrices, of shape
(product of the row counts, R).  Rows are ordered with the first
factor index varying slowest (mode-0 order).  An empty matrix list is an
error; a rank disagreement fails with the broadcast error of hadamard. -/
def khatri_rao_core : List Mat → Option Mat
  | [] => none
  | [U] => some U
  | U :: V :: rest =>
      (khatri_rao_core (V :: rest)).bind (fun K =>
        optList (U.flatMap (fun u => K.map (fun k => hadamard u k))))

/-- Modelled from the spec: mask application inside the Khatri-Rao
computation.  The mask, broadcast to the tensor shape and flattened in
mode-0 order, multiplies the corresponding row of the
(product of s_i, R) matrix; an ill-shaped mask is a broadcast error. -/
def applyMask (mask : Option (List Int)) (K : Mat) : Option Mat :=
  match mask with
  | none => some K
  | some m =>
      if m.length = K.length
      then some (List.zipWith (fun mi k => k.map (fun x => mi * x)) m K)
      else none

/-- Modelled from the spec: khatri_rao(matrices, skip_matrix, mask) of the
tenalg collaborator, a matrix of shape (product of s_i over i not skipped, R).
When the skip leaves no matrix, the empty column-wise product is the
(1, R) matrix of ones, R read off the first factor. -/
def khatri_rao (factors : List Mat) (skip : Option Nat) (mask : Option (List Int)) :
    Option Mat :=
  let rest := match skip with
    | none => factors
    | some i => factors.eraseIdx i
  let base := match rest, factors with
    | [], U :: _ => some [List.replicate (U.headD []).length 1]
    | _, _ => khatri_rao_core rest
  base.bind (applyMask mask)

/-- Modelled from the spec: T.sum(K, axis=1), the sum-reduction of a matrix
along its rank axis, one scalar per row. -/
def sumAxis1 (K : Mat) : List Int :=
  K.map (fun r => r.sum)

/-- Modelled from the spec: tl.fold(v, 0, shape), folding a flat vector at
mode 0 into a dense tensor of the given shape; for mode 0 this is the
row-major reshape. -/
def tl_fold0 (v : List Int) (shape : List Nat) : Tensor :=
  { shape := shape, data := v }

/-- The column-wise rescaling factors[0]*weights of the first factor:
every row of the first matrix is multiplied elementwise by the weight
vector. -/
def scaleFirst (factors : List Mat) (w : List Int) : List Mat :=
  match factors with
  | [] => []
  | U :: rest => (U.map (fun row => List.zipWith (· * ·) row w)) :: rest

/-- State passing for the caller-owned factors list: the source rebinds
factors[0] = factors[0]*weights when weights is not None, so the list the
caller holds after the call is the rescaled one; without weights it is
untouched. -/
def kruskal_to_tensor_post (factors : List Mat) (weights : Option (List Int)) :
    List Mat :=
  match weights with
  | none => factors
  | some w => scaleFirst factors w

/-- kruskal_to_tensor(factors, weights, mask) of kruskal_tensor.py: the
shape is read off the factors, the first factor is rescaled when weights
are given, the Khatri-Rao product (with the mask) is sum-reduced along
axis 1 and the vector is folded at mode 0 into the tensor shape. -/
def kruskal_to_tensor (factors : List Mat) (weights : Option (List Int))
    (mask : Option (List Int)) : Option Tensor :=
  let shape := factors.map List.length
  (khatri_rao (kruskal_to_tensor_post factors weights) none mask).map
    (fun K => tl_fold0 (sumAxis1 K) shape)

/-- Modelled from the spec: the transpose collaborator T.transpose. -/
def transposeM (M : Mat) : Mat :=
  (List.range (M.headD []).length).map (fun j => M.map (fun r => r.getD j 0))

/-- Dot product of two equal-length vectors. -/
def dotRC (u v : List Int) : Int :=
  (List.zipWith (· * ·) u v).sum

/-- Modelled from the spec: the matrix product collaborator T.dot; the
entry (i, j) is the dot product of row i of A with column j of B. -/
def matDot (A B : Mat) : Mat :=
  A.map (fun ar => (transposeM B).map (fun bc => dotRC ar bc))

/-- kruskal_to_unfolded(factors, mode) of kruskal_tensor.py: the indexing
factors[mode] fails for an out-of-range mode; otherwise the factor is
multiplied with the transposed Khatri-Rao product of the others. -/
def kruskal_to_unfolded (factors : List Mat) (mode : Nat) : Option Mat :=
  match factors[mode]? with
  | none => none
  | some U =>
      (khatri_rao factors (some mode) none).map
        (fun K => matDot U (transposeM K))

/-- Modelled from the spec: tl.tensor_to_vec, the row-major (mode-0 order)
flattening of a dense tensor. -/
def tensor_to_vec (t : Tensor) : List Int :=
  t.data

/-- kruskal_to_vec(factors) of kruskal_tensor.py: full reconstruction,
then flattening; no weights and no mask on this path. -/
def kruskal_to_vec (factors : List Mat) : Option (List Int) :=
  (kruskal_to_tensor factors none none).map tensor_to_vec

/-- Splits a flat vector into n consecutive rows of length k.  Used to
state the canonical mode-0 unfolding. -/
def chunksOf : Nat → Nat → List Int → Mat
  | 0, _, _ => []
  | n + 1, k, xs => xs.take k :: chunksOf n k (xs.drop k)

/-- The canonical mode-0 unfolding of a dense tensor, from the spec:
mode 0 gives the rows, the remaining modes are flattened row-major into
the columns. -/
def unfold0 (t : Tensor) : Mat :=
  chunksOf (t.shape.headD 0) (t.shape.tail).prod t.data

/-- All rows of the matrix have length R. -/
def matWF (U : Mat) (R : Nat) : Prop :=
  ∀ r ∈ U, r.length = R

/-- All factors are matrices of rank R (every row has length R). -/
def factorsWF (factors : List Mat) (R : Nat) : Prop :=
  ∀ U ∈ factors, matWF U R

instance (U : Mat) (R : Nat) : Decidable (matWF U R) := by
  unfold matWF; infer_instance

instance (factors : List Mat) (R : Nat) : Decidable (factorsWF factors R) := by
  unfold factorsWF; infer_instance

/-! ### Helper lemmas -/

/-- The total value of the Khatri-Rao core on rank-consistent input. -/
def krSpec : List Mat → Mat
  | [] => []
  | [U] => U
  | U :: V :: rest =>
      U.flatMap (fun u => (krSpec (V :: rest)).map (fun k => List.zipWith (· * ·) u k))

lemma krSpec_cons_cons (U V : Mat) (rest : List Mat) :
    krSpec (U :: V :: rest) =
      U.flatMap (fun u => (krSpec (V :: rest)).map (fun k => List.zipWith (· * ·) u k)) :=
  rfl

lemma krSpec_wf {R : ℕ} :
    ∀ fs : List Mat, factorsWF fs R → matWF (krSpec fs) R
  | [], _ => by intro r hr; simp [krSpec] at hr
  | [U], hwf => hwf U (by simp)
  | U :: V :: rest, hwf => by
      intro r hr
      rw [krSpec_cons_cons] at hr
      simp only [List.mem_flatMap, List.mem_map] at hr
      obtain ⟨u, hu, k, hk, rfl⟩ := hr
      have h1 : u.length = R := hwf U (by simp) u hu
      have h2 : k.length = R :=
        krSpec_wf (V :: rest) (fun W hW => hwf W (List.mem_cons_of_mem U hW)) k hk
      simp [List.length_zipWith, h1, h2]

lemma optList_append (l₁ l₂ : List (Option α)) :
    optList (l₁ ++ l₂) =
      (optList l₁).bind (fun xs => (optList l₂).map (fun ys => xs ++ ys)) := by
  induction l₁ with
  | nil =>
      cases h : optList l₂ <;> simp [optList, h]
  | cons o rest ih =>
      cases o with
      | none => rfl
      | some x =>
          have h1 : optList ((some x :: rest) ++ l₂) =
              (optList (rest ++ l₂)).map (x :: ·) := rfl
          have h2 : optList (some x :: rest) = (optList rest).map (x :: ·) := rfl
          rw [h1, ih, h2]
          cases optList rest <;> cases optList l₂ <;> rfl

lemma optList_map (l : List α) (f : α → Option β) (g : α → β)
    (h : ∀ x ∈ l, f x = some (g x)) :
    optList (l.map f) = some (l.map g) := by
  induction l with
  | nil => rfl
  | cons x rest ih =>
      have hx := h x (List.mem_cons_self x rest)
      simp only [List.map_cons, optList, hx, Option.some_bind,
        ih (fun y hy => h y (List.mem_cons_of_mem x hy))]
      rfl

lemma optList_flatMap (U : List α) (F : α → List (Option β)) (G : α → List β)
    (h : ∀ u ∈ U, optList (F u) = some (G u)) :
    optList (U.flatMap F) = some (U.flatMap G) := by
  induction U with
  | nil => rfl
  | cons u rest ih =>
      rw [List.flatMap_cons, List.flatMap_cons, optList_append,
        h u (List.mem_cons_self u rest),
        ih (fun y hy => h y (List.mem_cons_of_mem u hy))]
      rfl

lemma khatri_rao_core_eq {R : ℕ} :
    ∀ fs : List Mat, factorsWF fs R → fs ≠ [] →
      khatri_rao_core fs = some (krSpec fs)
  | [], _, hne => absurd rfl hne
  | [U], _, _ => rfl
  | U :: V :: rest, hwf, _ => by
      have hrec := khatri_rao_core_eq (V :: rest)
        (fun W hW => hwf W (List.mem_cons_of_mem U hW)) (by simp)
      have hU : matWF U R := hwf U (by simp)
      have hK : matWF (krSpec (V :: rest)) R :=
        krSpec_wf (V :: rest) (fun W hW => hwf W (List.mem_cons_of_mem U hW))
      rw [khatri_rao_core, hrec, Option.some_bind, krSpec_cons_cons]
      refine optList_flatMap U _ _ (fun u hu => ?_)
      refine optList_map _ _ _ (fun k hk => ?_)
      have h1 : u.length = R := hU u hu
      have h2 : k.length = R := hK k hk
      simp [hadamard, h1, h2]

lemma length_flatMap_const (U : List α) (F : α → List β) (k : ℕ)
    (h : ∀ u ∈ U, (F u).length = k) :
    (U.flatMap F).length = U.length * k := by
  induction U with
  | nil => simp
  | cons u rest ih =>
      rw [List.flatMap_cons, List.length_append, h u (by simp),
        ih (fun y hy => h y (List.mem_cons_of_mem u hy))]
      simp [List.length_cons, Nat.succ_mul, Nat.add_comm]

lemma krSpec_length :
    ∀ fs : List Mat, fs ≠ [] → (krSpec fs).length = (fs.map List.length).prod
  | [], hne => absurd rfl hne
  | [U], _ => by simp [krSpec]
  | U :: V :: rest, _ => by
      have ih := krSpec_length (V :: rest) (by simp)
      rw [krSpec_cons_cons,
        length_flatMap_const U _ (krSpec (V :: rest)).length
          (fun u _ => List.length_map _ _)]
      simp [ih]

lemma range_map_eq {α : Type} (L : List α) (G : ℕ → α)
    (h : ∀ i (hi : i < L.length), G i = L.get ⟨i, hi⟩) :
    (List.range L.length).map G = L := by
  refine List.ext_getElem (by simp) (fun i hi1 hi2 => ?_)
  simp only [List.getElem_map, List.getElem_range]
  exact h i hi2

lemma range_map_getD {α : Type} (d : α) (l : List α) :
    (List.range l.length).map (fun j => l.getD j d) = l := by
  refine range_map_eq l _ (fun i hi => ?_)
  rw [List.getD_eq_getElem?_getD, List.getElem?_eq_getElem hi]
  rfl

lemma getD_map_lt {α β : Type} (dβ : β) (g : α → β) (l : List α) (i : ℕ)
    (h : i < l.length) :
    (l.map g).getD i dβ = g (l.get ⟨i, h⟩) := by
  rw [List.getD_eq_getElem?_getD, List.getElem?_map,
    List.getElem?_eq_getElem h]
  rfl

lemma transposeM_of_wf (K : Mat) (R : ℕ) (hK : matWF K R) (hne : K ≠ []) :
    transposeM K = (List.range R).map (fun j => K.map (fun r => r.getD j 0)) := by
  obtain ⟨k, ks, rfl⟩ := List.exists_cons_of_ne_nil hne
  have hk : k.length = R := hK k (by simp)
  simp [transposeM, hk]

lemma transposeM_headD_length (K : Mat) (R : ℕ) (hK : matWF K R) (hne : K ≠ [])
    (hR : 0 < R) :
    ((transposeM K).headD []).length = K.length := by
  rw [transposeM_of_wf K R hK hne]
  obtain ⟨r, rfl⟩ : ∃ r, R = r + 1 := ⟨R - 1, (Nat.succ_pred_eq_of_pos hR).symm⟩
  rw [List.range_succ_eq_map, List.map_cons, List.headD_cons, List.length_map]

lemma transposeM_transposeM (K : Mat) (R : ℕ) (hK : matWF K R) (hne : K ≠ [])
    (hR : 0 < R) :
    transposeM (transposeM K) = K := by
  have hstep : transposeM (transposeM K) =
      (List.range ((transposeM K).headD []).length).map
        (fun i => (transposeM K).map (fun r => r.getD i 0)) := rfl
  rw [hstep, transposeM_headD_length K R hK hne hR]
  refine range_map_eq K _ (fun i hi => ?_)
  rw [transposeM_of_wf K R hK hne, List.map_map]
  have hKi : (K.get ⟨i, hi⟩).length = R := hK _ (List.get_mem K i hi)
  have hcomp : ((fun r => r.getD i 0) ∘ fun j => K.map (fun r => r.getD j 0)) =
      (fun j => (K.map (fun r => r.getD j 0)).getD i 0) := rfl
  rw [hcomp]
  have hcol : (fun j => (K.map (fun r => r.getD j 0)).getD i 0) =
      (fun j => (K.get ⟨i, hi⟩).getD j 0) := by
    funext j
    exact getD_map_lt 0 (fun r => r.getD j 0) K i hi
  rw [hcol, ← hKi]
  exact range_map_getD 0 (K.get ⟨i, hi⟩)

lemma matDot_transposeM (U K : Mat) (R : ℕ) (hK : matWF K R) (hR : 0 < R) :
    matDot U (transposeM K) = U.map (fun u => K.map (fun k => dotRC u k)) := by
  by_cases hne : K = []
  · subst hne
    simp [matDot, transposeM]
  · rw [show matDot U (transposeM K) =
      U.map (fun ar => (transposeM (transposeM K)).map (fun bc => dotRC ar bc)) from rfl]
    rw [transposeM_transposeM K R hK hne hR]

lemma chunksOf_nil (n k : ℕ) : chunksOf n k [] = List.replicate n [] := by
  induction n with
  | zero => rfl
  | succ m ih => simp [chunksOf, ih, List.replicate_succ]

lemma chunksOf_flatMap {α : Type} (U : List α) (F : α → List Int) (k : ℕ)
    (h : ∀ u ∈ U, (F u).length = k) :
    chunksOf U.length k (U.flatMap F) = U.map F := by
  induction U with
  | nil => rfl
  | cons u rest ih =>
      rw [List.flatMap_cons, List.length_cons, List.map_cons]
      have hu : (F u).length = k := h u (by simp)
      rw [chunksOf, ← hu, List.take_left, List.drop_left]
      rw [hu, ih (fun y hy => h y (List.mem_cons_of_mem u hy))]

lemma sum_map_mul_left_int (c : Int) (k : List Int) :
    (k.map (fun x => c * x)).sum = c * k.sum := by
  induction k with
  | nil => simp
  | cons x xs ih => simp [ih, mul_add]

lemma zipWith_mul_replicate_one (u : List Int) (R : ℕ) (h : u.length = R) :
    List.zipWith (· * ·) u (List.replicate R 1) = u := by
  induction u generalizing R with
  | nil => simp
  | cons x xs ih =>
      cases R with
      | zero => simp at h
      | succ r =>
          rw [List.replicate_succ, List.zipWith_cons_cons, mul_one,
            ih r (by simpa using h)]

lemma dotRC_replicate_one (u : List Int) (R : ℕ) (h : u.length = R) :
    dotRC u (List.replicate R 1) = u.sum := by
  rw [dotRC, zipWith_mul_replicate_one u R h]

lemma chunksOf_singleton (xs : List Int) :
    chunksOf xs.length 1 xs = xs.map (fun x => [x]) := by
  induction xs with
  | nil => rfl
  | cons x rest ih => simp [chunksOf, ih]

lemma scaleFirst_map_length (factors : List Mat) (w : List Int) :
    (scaleFirst factors w).map List.length = factors.map List.length := by
  cases factors with
  | nil => rfl
  | cons U rest => simp [scaleFirst]

lemma scaleFirst_ne_nil (factors : List Mat) (w : List Int) (h : factors ≠ []) :
    scaleFirst factors w ≠ [] := by
  cases factors with
  | nil => exact absurd rfl h
  | cons U rest => simp [scaleFirst]

lemma scaleFirst_wf {R : ℕ} (factors : List Mat) (w : List Int)
    (hwf : factorsWF factors R) (hw : w.length = R) :
    factorsWF (scaleFirst factors w) R := by
  cases factors with
  | nil => intro U hU; simp [scaleFirst] at hU
  | cons U rest =>
      intro W hW
      rw [scaleFirst, List.mem_cons] at hW
      rcases hW with h | h
      · subst h
        intro r hr
        simp only [List.mem_map] at hr
        obtain ⟨row, hrow, rfl⟩ := hr
        have : row.length = R := hwf U (by simp) row hrow
        simp [List.length_zipWith, this, hw]
      · exact hwf W (List.mem_cons_of_mem U h)

lemma khatri_rao_none_eq (fs : List Mat) (mask : Option (List Int)) :
    khatri_rao fs none mask = (khatri_rao_core fs).bind (applyMask mask) := by
  cases fs <;> rfl

lemma khatri_rao_skip0_cons (U V : Mat) (vs : List Mat) :
    khatri_rao (U :: V :: vs) (some 0) none = khatri_rao_core (V :: vs) := by
  rw [show khatri_rao (U :: V :: vs) (some 0) none =
    (khatri_rao_core (V :: vs)).bind (applyMask none) from rfl]
  cases khatri_rao_core (V :: vs) <;> rfl

lemma mem_zipWith_mask {m : List Int} {K : Mat} {r : List Int}
    (h : r ∈ List.zipWith (fun mi k => k.map (fun x => mi * x)) m K) :
    ∃ mi k, k ∈ K ∧ r = k.map (fun x => mi * x) := by
  induction m generalizing K with
  | nil => simp at h
  | cons mi ms ih =>
      cases K with
      | nil => simp at h
      | cons k ks =>
          rw [List.zipWith_cons_cons, List.mem_cons] at h
          rcases h with h | h
          · exact ⟨mi, k, by simp, h⟩
          · obtain ⟨mi', k', hk', hr⟩ := ih h
            exact ⟨mi', k', List.mem_cons_of_mem k hk', hr⟩

lemma sumAxis1_mask (m : List Int) (K : Mat) :
    sumAxis1 (List.zipWith (fun mi k => k.map (fun x => mi * x)) m K) =
      List.zipWith (· * ·) (sumAxis1 K) m := by
  induction m generalizing K with
  | nil => cases K <;> rfl
  | cons mi ms ih =>
      cases K with
      | nil => rfl
      | cons k ks =>
          have e1 : sumAxis1 ((k.map (fun x => mi * x)) ::
              List.zipWith (fun mi k => k.map (fun x => mi * x)) ms ks) =
              (k.map (fun x => mi * x)).sum ::
              sumAxis1 (List.zipWith (fun mi k => k.map (fun x => mi * x)) ms ks) := rfl
          have e2 : sumAxis1 (k :: ks) = k.sum :: sumAxis1 ks := rfl
          rw [List.zipWith_cons_cons, e1, ih ks, sum_map_mul_left_int, e2,
            List.zipWith_cons_cons, mul_comm]

/-- Success and value of kruskal_to_tensor on rank-consistent input
without weights and mask. -/
lemma kruskal_to_tensor_eq {R : ℕ} (fs : List Mat)
    (hwf : factorsWF fs R) (hne : fs ≠ []) :
    kruskal_to_tensor fs none none =
      some { shape := fs.map List.length, data := sumAxis1 (krSpec fs) } := by
  rw [kruskal_to_tensor, show kruskal_to_tensor_post fs none = fs from rfl,
    khatri_rao_none_eq, khatri_rao_core_eq fs hwf hne]
  rfl

lemma sumAxis1_length (K : Mat) : (sumAxis1 K).length = K.length :=
  List.length_map K (fun r => r.sum)

/-- Weight argument well-formed: absent, or a vector of length R. -/
def weightsOK (weights : Option (List Int)) (R : ℕ) : Prop :=
  match weights with
  | none => True
  | some w => w.length = R

instance (weights : Option (List Int)) (R : ℕ) : Decidable (weightsOK weights R) := by
  cases weights with
  | none => exact isTrue trivial
  | some w => exact Nat.decEq w.length R

/-- Mask argument well-formed: absent, or of the full flattened size. -/
def maskOK (mask : Option (List Int)) (n : ℕ) : Prop :=
  match mask with
  | none => True
  | some m => m.length = n

instance (mask : Option (List Int)) (n : ℕ) : Decidable (maskOK mask n) := by
  cases mask with
  | none => exact isTrue trivial
  | some m => exact Nat.decEq m.length n

/-! ### Claims -/

/-- C1: for every factor list of N matrices with common rank R (and
well-formed optional weights and mask), kruskal_to_tensor computes the
Khatri-Rao product of the (possibly weight-rescaled) factors with the
mask applied inside that computation, obtaining a (prod s_i, R) matrix,
sum-reduces it along axis 1 to a vector of length prod s_i, and folds
that vector at mode 0 into a dense tensor of shape (s_1, ..., s_N). -/
theorem C1_kruskal_to_tensor_pipeline
    (factors : List Mat) (R : ℕ) (weights mask : Option (List Int))
    (hwf : factorsWF factors R) (hne : factors ≠ [])
    (hw : weightsOK weights R)
    (hm : maskOK mask (factors.map List.length).prod) :
    ∃ K : Mat,
      khatri_rao (kruskal_to_tensor_post factors weights) none mask = some K ∧
      K.length = (factors.map List.length).prod ∧
      matWF K R ∧
      kruskal_to_tensor factors weights mask =
        some { shape := factors.map List.length, data := sumAxis1 K } ∧
      (sumAxis1 K).length = (factors.map List.length).prod := by
  have hwf2 : factorsWF (kruskal_to_tensor_post factors weights) R := by
    cases weights with
    | none => exact hwf
    | some w => exact scaleFirst_wf factors w hwf hw
  have hne2 : kruskal_to_tensor_post factors weights ≠ [] := by
    cases weights with
    | none => exact hne
    | some w => exact scaleFirst_ne_nil factors w hne
  have hlen2 : (kruskal_to_tensor_post factors weights).map List.length =
      factors.map List.length := by
    cases weights with
    | none => rfl
    | some w => exact scaleFirst_map_length factors w
  have hcore : khatri_rao_core (kruskal_to_tensor_post factors weights) =
      some (krSpec (kruskal_to_tensor_post factors weights)) :=
    khatri_rao_core_eq _ hwf2 hne2
  have hklen : (krSpec (kruskal_to_tensor_post factors weights)).length =
      (factors.map List.length).prod := by
    rw [krSpec_length _ hne2, hlen2]
  have hkwf : matWF (krSpec (kruskal_to_tensor_post factors weights)) R :=
    krSpec_wf _ hwf2
  cases mask with
  | none =>
      refine ⟨krSpec (kruskal_to_tensor_post factors weights), ?_, hklen, hkwf, ?_, ?_⟩
      · rw [khatri_rao_none_eq, hcore]; rfl
      · rw [kruskal_to_tensor, khatri_rao_none_eq, hcore]; rfl
      · rw [sumAxis1_length, hklen]
  | some m =>
      have hmlen : m.length =
          (krSpec (kruskal_to_tensor_post factors weights)).length := by
        rw [hklen]; exact hm
      have happ : applyMask (some m) (krSpec (kruskal_to_tensor_post factors weights)) =
          some (List.zipWith (fun mi k => k.map (fun x => mi * x)) m
            (krSpec (kruskal_to_tensor_post factors weights))) := by
        rw [applyMask, if_pos hmlen]
      refine ⟨List.zipWith (fun mi k => k.map (fun x => mi * x)) m
        (krSpec (kruskal_to_tensor_post factors weights)), ?_, ?_, ?_, ?_, ?_⟩
      · rw [khatri_rao_none_eq, hcore]
        exact happ
      · rw [List.length_zipWith, hklen, ← hm, min_self]
      · intro r hr
        obtain ⟨mi, k, hk, rfl⟩ := mem_zipWith_mask hr
        rw [List.length_map]
        exact hkwf k hk
      · rw [kruskal_to_tensor, khatri_rao_none_eq, hcore,
          show (some (krSpec (kruskal_to_tensor_post factors weights))).bind
            (applyMask (some m)) =
            applyMask (some m) (krSpec (kruskal_to_tensor_post factors weights))
            from rfl, happ]
        rfl
      · rw [sumAxis1_length, List.length_zipWith, hklen, ← hm, min_self]

/-- C1 witness: the pipeline at a concrete rank-2 factor pair with both a
weight vector and a mask. -/
theorem C1_kruskal_to_tensor_pipeline_witness :
    ∃ K : Mat,
      khatri_rao (kruskal_to_tensor_post [[[1,0],[0,1]], [[1,1],[1,1]]]
        (some [2,5])) none (some [1,0,2,3]) = some K ∧
      K.length = (([[[1,0],[0,1]], [[1,1],[1,1]]] : List Mat).map List.length).prod ∧
      matWF K 2 ∧
      kruskal_to_tensor [[[1,0],[0,1]], [[1,1],[1,1]]] (some [2,5]) (some [1,0,2,3]) =
        some { shape := ([[[1,0],[0,1]], [[1,1],[1,1]]] : List Mat).map List.length,
               data := sumAxis1 K } ∧
      (sumAxis1 K).length =
        (([[[1,0],[0,1]], [[1,1],[1,1]]] : List Mat).map List.length).prod :=
  C1_kruskal_to_tensor_pipeline [[[1,0],[0,1]], [[1,1],[1,1]]] 2
    (some [2,5]) (some [1,0,2,3]) (by decide) (by decide) (by decide) (by decide)

/-- C2: for every nonempty factor list with consistent positive rank R,
kruskal_to_unfolded(factors, 0), computed as factors[0] times the
transpose of the Khatri-Rao product of the remaining factors, equals the
canonical mode-0 unfolding of kruskal_to_tensor(factors): the optimized
unfolded path and the full-reconstruction-then-unfold path agree. -/
theorem C2_kruskal_to_unfolded_mode0_refines_full
    (factors : List Mat) (R : ℕ) (hwf : factorsWF factors R)
    (hne : factors ≠ []) (hR : 0 < R) :
    ∃ t : Tensor, kruskal_to_tensor factors none none = some t ∧
      kruskal_to_unfolded factors 0 = some (unfold0 t) := by
  obtain ⟨U, rest, rfl⟩ := List.exists_cons_of_ne_nil hne
  refine ⟨_, kruskal_to_tensor_eq (U :: rest) hwf hne, ?_⟩
  have hstep : kruskal_to_unfolded (U :: rest) 0 =
      (khatri_rao (U :: rest) (some 0) none).map
        (fun K => matDot U (transposeM K)) := by
    simp [kruskal_to_unfolded]
  have hunf : unfold0 (Tensor.mk ((U :: rest).map List.length)
        (sumAxis1 (krSpec (U :: rest)))) =
      chunksOf U.length ((rest.map List.length)).prod
        (sumAxis1 (krSpec (U :: rest))) := rfl
  rw [hstep, hunf]
  cases rest with
  | nil =>
      have hkr : khatri_rao [U] (some 0) none =
          some [List.replicate (U.headD []).length 1] := rfl
      rw [hkr]
      cases U with
      | nil => rfl
      | cons u us =>
          have hU : matWF (u :: us) R := hwf (u :: us) (by simp)
          have hhead : ((u :: us).headD []).length = R := hU u (by simp)
          rw [hhead, Option.map_some']
          have hK1 : matWF [List.replicate R 1] R := by
            intro r hr
            rw [List.mem_singleton] at hr
            subst hr
            exact List.length_replicate R 1
          rw [matDot_transposeM (u :: us) [List.replicate R 1] R hK1 hR]
          have hmap : (u :: us).map (fun v => ([List.replicate R 1] : Mat).map
              (fun k => dotRC v k)) = (u :: us).map (fun v => [v.sum]) := by
            refine List.map_congr_left (fun v hv => ?_)
            rw [List.map_singleton, dotRC_replicate_one v R (hU v hv)]
          rw [hmap]
          have hlen : (u :: us).length =
              ((u :: us).map (fun r => r.sum)).length := (List.length_map _ _).symm
          rw [show krSpec [u :: us] = u :: us from rfl]
          rw [show sumAxis1 (u :: us) = (u :: us).map (fun r => r.sum) from rfl]
          rw [show ((([] : List Mat)).map List.length).prod = 1 from rfl]
          rw [hlen, chunksOf_singleton, List.map_map]
          rfl
  | cons V vs =>
      have hrest_ne : (V :: vs) ≠ [] := by simp
      have hwf_rest : factorsWF (V :: vs) R :=
        fun W hW => hwf W (List.mem_cons_of_mem U hW)
      have hK : matWF (krSpec (V :: vs)) R := krSpec_wf _ hwf_rest
      have hKlen : (krSpec (V :: vs)).length = ((V :: vs).map List.length).prod :=
        krSpec_length _ hrest_ne
      rw [khatri_rao_skip0_cons, khatri_rao_core_eq (V :: vs) hwf_rest hrest_ne]
      rw [show (some (krSpec (V :: vs))).map (fun K => matDot U (transposeM K)) =
        some (matDot U (transposeM (krSpec (V :: vs)))) from rfl]
      rw [matDot_transposeM U (krSpec (V :: vs)) R hK hR]
      rw [krSpec_cons_cons]
      rw [show sumAxis1 (U.flatMap (fun u => (krSpec (V :: vs)).map
          (fun k => List.zipWith (· * ·) u k))) =
        (U.flatMap (fun u => (krSpec (V :: vs)).map
          (fun k => List.zipWith (· * ·) u k))).map (fun r => r.sum) from rfl]
      rw [List.map_flatMap]
      have hinner : ∀ u : List Int, ((krSpec (V :: vs)).map
          (fun k => List.zipWith (· * ·) u k)).map (fun r => r.sum) =
          (krSpec (V :: vs)).map (fun k => dotRC u k) := by
        intro u
        rw [List.map_map]
        rfl
      rw [show (fun u => ((krSpec (V :: vs)).map
          (fun k => List.zipWith (· * ·) u k)).map (fun r => r.sum)) =
        (fun u => (krSpec (V :: vs)).map (fun k => dotRC u k)) from funext hinner]
      rw [← hKlen]
      rw [chunksOf_flatMap U (fun u => (krSpec (V :: vs)).map (fun k => dotRC u k))
        (krSpec (V :: vs)).length (fun u _ => List.length_map _ _)]

/-- C2 witness: the agreement at a concrete pair of rank-2 factors. -/
theorem C2_kruskal_to_unfolded_mode0_refines_full_witness :
    ∃ t : Tensor,
      kruskal_to_tensor [[[1,0],[0,1]], [[1,1],[1,1]]] none none = some t ∧
      kruskal_to_unfolded [[[1,0],[0,1]], [[1,1],[1,1]]] 0 = some (unfold0 t) :=
  C2_kruskal_to_unfolded_mode0_refines_full [[[1,0],[0,1]], [[1,1],[1,1]]] 2
    (by decide) (by decide) (by decide)

/-- C3 counterexample: the claim that the caller-supplied factors list is
unchanged for every choice of weights is false: with weights [2,3] the
call leaves the caller holding a rescaled first factor. -/
theorem C3_factors_mutated_counterexample :
    kruskal_to_tensor_post [[[1,2]]] (some [2,3]) ≠ [[[1,2]]] := by
  decide

/-- C3 amended: kruskal_to_tensor leaves the caller-supplied factors list
unchanged when no weights are passed (for any mask argument, which never
touches the list); when a weights vector w is passed, the call replaces
the first entry of the caller-owned list with factors[0] rescaled
column-wise by w. -/
theorem C3_factors_unchanged_without_weights (factors : List Mat)
    (w : List Int) :
    kruskal_to_tensor_post factors none = factors ∧
    kruskal_to_tensor_post factors (some w) = scaleFirst factors w :=
  ⟨rfl, rfl⟩

/-- C4: the weighting law: reconstructing with a weight vector w equals
reconstructing, without weights, the list whose first factor is rescaled
column-wise by w and whose remaining factors are unchanged. -/
theorem C4_weighting_law (factors : List Mat) (w : List Int) :
    kruskal_to_tensor factors (some w) none =
      kruskal_to_tensor (scaleFirst factors w) none none := by
  rw [kruskal_to_tensor, kruskal_to_tensor,
    show kruskal_to_tensor_post factors (some w) = scaleFirst factors w from rfl,
    show kruskal_to_tensor_post (scaleFirst factors w) none =
      scaleFirst factors w from rfl,
    scaleFirst_map_length]

/-- C5: the masking law: reconstructing with a full-size mask m equals
the elementwise product of the unmasked reconstruction with m. -/
theorem C5_masking_law (factors : List Mat) (R : ℕ) (m : List Int)
    (hwf : factorsWF factors R) (hne : factors ≠ [])
    (hm : m.length = (factors.map List.length).prod) :
    ∃ t : Tensor, kruskal_to_tensor factors none none = some t ∧
      kruskal_to_tensor factors none (some m) =
        some (Tensor.mk t.shape (List.zipWith (· * ·) t.data m)) := by
  refine ⟨_, kruskal_to_tensor_eq factors hwf hne, ?_⟩
  have hcore := khatri_rao_core_eq factors hwf hne
  have hklen : (krSpec factors).length = (factors.map List.length).prod :=
    krSpec_length factors hne
  have hmlen : m.length = (krSpec factors).length := by rw [hklen]; exact hm
  rw [kruskal_to_tensor,
    show kruskal_to_tensor_post factors none = factors from rfl,
    khatri_rao_none_eq, hcore,
    show (some (krSpec factors)).bind (applyMask (some m)) =
      applyMask (some m) (krSpec factors) from rfl,
    applyMask, if_pos hmlen, Option.map_some']
  rw [show tl_fold0 (sumAxis1 (List.zipWith (fun mi k => k.map (fun x => mi * x))
      m (krSpec factors))) (factors.map List.length) =
    Tensor.mk (factors.map List.length)
      (sumAxis1 (List.zipWith (fun mi k => k.map (fun x => mi * x))
        m (krSpec factors))) from rfl]
  rw [sumAxis1_mask]

/-- C5 witness: the masking law at a concrete rank-2 factor pair and a
concrete full-size mask. -/
theorem C5_masking_law_witness :
    ∃ t : Tensor,
      kruskal_to_tensor [[[1,0],[0,1]], [[1,1],[1,1]]] none none = some t ∧
      kruskal_to_tensor [[[1,0],[0,1]], [[1,1],[1,1]]] none (some [1,0,2,3]) =
        some (Tensor.mk t.shape (List.zipWith (· * ·) t.data [1,0,2,3])) :=
  C5_masking_law [[[1,0],[0,1]], [[1,1],[1,1]]] 2 [1,0,2,3]
    (by decide) (by decide) (by decide)

/-- C6: kruskal_to_vec equals the row-major (mode-0 order) flattening of
kruskal_to_tensor, a vector of length prod s_i; no weighting or masking
is applied on this path. -/
theorem C6_kruskal_to_vec_is_flatten (factors : List Mat) (R : ℕ)
    (hwf : factorsWF factors R) (hne : factors ≠ []) :
    ∃ t : Tensor, kruskal_to_tensor factors none none = some t ∧
      kruskal_to_vec factors = some (tensor_to_vec t) ∧
      (tensor_to_vec t).length = (factors.map List.length).prod := by
  refine ⟨_, kruskal_to_tensor_eq factors hwf hne, ?_, ?_⟩
  · rw [kruskal_to_vec, kruskal_to_tensor_eq factors hwf hne]
    rfl
  · rw [show tensor_to_vec (Tensor.mk (factors.map List.length)
      (sumAxis1 (krSpec factors))) = sumAxis1 (krSpec factors) from rfl]
    rw [sumAxis1_length, krSpec_length factors hne]

/-- C6 witness: the flattening agreement at a concrete rank-2 pair. -/
theorem C6_kruskal_to_vec_is_flatten_witness :
    ∃ t : Tensor,
      kruskal_to_tensor [[[1,0],[0,1]], [[1,1],[1,1]]] none none = some t ∧
      kruskal_to_vec [[[1,0],[0,1]], [[1,1],[1,1]]] = some (tensor_to_vec t) ∧
      (tensor_to_vec t).length =
        (([[[1,0],[0,1]], [[1,1],[1,1]]] : List Mat).map List.length).prod :=
  C6_kruskal_to_vec_is_flatten [[[1,0],[0,1]], [[1,1],[1,1]]] 2
    (by decide) (by decide)

/-- C7: single-factor degenerate case: for every matrix U,
kruskal_to_tensor([U]) with no weights and no mask is the shape-(s,)
tensor of the row sums of U over its rank axis. -/
theorem C7_single_factor_row_sums (U : Mat) :
    kruskal_to_tensor [U] none none =
      some (Tensor.mk [U.length] (U.map (fun r => r.sum))) := rfl

/-- C8: rank-mismatch failure: with factors of shapes (3,2) and (4,3) the
Khatri-Rao collaborator fails with a shape-mismatch error and
kruskal_to_tensor propagates it instead of returning a tensor. -/
theorem C8_rank_mismatch_fails :
    khatri_rao [[[1,1],[1,1],[1,1]],
      [[1,1,1],[1,1,1],[1,1,1],[1,1,1]]] none none = none ∧
    kruskal_to_tensor [[[1,1],[1,1],[1,1]],
      [[1,1,1],[1,1,1],[1,1,1],[1,1,1]]] none none = none := by
  constructor <;> rfl

/-- C9: mode-out-of-range failure: for every factor list and every mode
at least the list length, kruskal_to_unfolded fails with an index error
instead of returning a matrix. -/
theorem C9_mode_out_of_range_fails (factors : List Mat) (mode : ℕ)
    (h : factors.length ≤ mode) :
    kruskal_to_unfolded factors mode = none := by
  have h0 : factors[mode]? = none := List.getElem?_eq_none h
  simp [kruskal_to_unfolded, h0]

/-- C9 witness: mode 5 with only two factors fails. -/
theorem C9_mode_out_of_range_fails_witness :
    kruskal_to_unfolded [[[1,2]], [[3,4]]] 5 = none :=
  C9_mode_out_of_range_fails [[[1,2]], [[3,4]]] 5 (by decide)

/-- C10: ordering of weighting and masking: supplying both a weight
vector w and a mask m equals first rescaling the first factor by w and
then reconstructing with the mask alone, for every input. -/
theorem C10_weights_then_mask (factors : List Mat) (w m : List Int) :
    kruskal_to_tensor factors (some w) (some m) =
      kruskal_to_tensor (scaleFirst factors w) none (some m) := by
  rw [kruskal_to_tensor, kruskal_to_tensor,
    show kruskal_to_tensor_post factors (some w) = scaleFirst factors w from rfl,
    show kruskal_to_tensor_post (scaleFirst factors w) none =
      scaleFirst factors w from rfl,
    scaleFirst_map_length]
